import Mathlib

/-!
Verification of the post-processing pipeline of the instance-segmentation
exercise notebook (`exercise.ipynb`): the signed distance transform
(`compute_sdt`), local-maxima seeding (`find_local_maxima`) and the seeded
watershed wrapper (`watershed_from_boundary_distance`).

Arrays are embedded as Lean lists (the one-dimensional instance of the
axis-wise construction; every step of the source acts axis by axis).
Floating point values are modelled as rationals inside the pipeline and as
real numbers after the final `tanh` squash.  The external library routines
the notebook calls (`scipy.ndimage.distance_transform_edt`,
`scipy.ndimage.map_coordinates`, `scipy.ndimage.maximum_filter`,
`scipy.ndimage.label`, `skimage.segmentation.watershed`) are modelled from
their documented semantics, as noted at each definition.
-/

namespace InstanceSeg

/-! ## Signed distance transform (`compute_sdt`)

Source:
```
def compute_sdt(labels: np.ndarray, scale: int = 5):
    dims = len(labels.shape)
    distances = np.ones(labels.shape, dtype=np.float32) * np.inf
    for axis in range(dims):
        bounds = (labels[1:] == labels[:-1])          # slices along `axis`
        bounds = np.pad(bounds, (1, 1), mode="constant", constant_values=1)
        axis_distances = distance_transform_edt(bounds)
        coordinates = np.linspace(0.5, axis_distances.shape[axis] - 1.5,
                                  labels.shape[axis])  # meshgrid along `axis`
        sampled = map_coordinates(axis_distances, coordinates, order=3)
        distances = np.minimum(distances, sampled)
    distances = np.tanh(distances / scale)
    distances[labels == 0] *= -1
    return distances
```
-/

/-- Embedding of `labels[1:] == labels[:-1]`: entry `i` is `true` iff
`labels[i+1] = labels[i]`, i.e. `true` means the two adjacent labels are
equal (no boundary between them) and `false` marks a boundary. -/
def boundsList (labels : List ℤ) : List Bool :=
  List.zipWith (fun a b => a == b) labels.tail labels

/-- Embedding of `np.pad(bounds, (1, 1), mode="constant", constant_values=1)`:
one entry holding `1` (that is, `true`) is added at each end. -/
def boundsPadded (labels : List ℤ) : List Bool :=
  true :: (boundsList labels ++ [true])

/-- Indices of the zero (`false`) entries of the indicator array. -/
def zeroPositions (bs : List Bool) : List ℕ :=
  (List.range bs.length).filter (fun j => bs.getD j true = false)

/-- Distance between two indices. -/
def idxDist (i j : ℕ) : ℕ := max i j - min i j

/-- Modelled from the documented semantics of
`scipy.ndimage.distance_transform_edt`: each non-zero element is replaced by
its distance to the nearest zero element, and zero elements get distance 0.
When the input has no zero element at all, scipy's result is
implementation-defined (but finite); that degenerate case is modelled as
distance 0. -/
def edtAt (bs : List Bool) (i : ℕ) : ℚ :=
  match (zeroPositions bs).map (fun j => idxDist i j) with
  | [] => 0
  | d :: ds => ((ds.foldl min d : ℕ) : ℚ)

/-- The Euclidean distance transform of the whole indicator array. -/
def edtList (bs : List Bool) : List ℚ :=
  (List.range bs.length).map (edtAt bs)

/-- Forward sweep of the tridiagonal solve for the cubic B-spline
prefilter used by `scipy.ndimage.map_coordinates(..., order=3)`.
The interpolation coefficients `c` satisfy
`(c[i-1] + 4*c[i] + c[i+1]) / 6 = y[i]` with mirror boundary handling
(`c[-1] = c[1]`, `c[m] = c[m-2]`), i.e. first row `4*c[0] + 2*c[1] = 6*y[0]`
and last row `2*c[m-2] + 4*c[m-1] = 6*y[m-1]`.
Each produced pair holds the scaled superdiagonal and right-hand side. -/
def sdtFwd : List ℚ → ℚ → ℚ → List (ℚ × ℚ)
  | [], _, _ => []
  | [y], s, r =>
      let p := 4 - 2 * s
      [(0, (6 * y - 2 * r) / p)]
  | y :: y2 :: ys, s, r =>
      let p := 4 - s
      let s2 := 1 / p
      let r2 := (6 * y - r) / p
      (s2, r2) :: sdtFwd (y2 :: ys) s2 r2

/-- Back substitution for the tridiagonal solve. -/
def sdtBack (l : List (ℚ × ℚ)) : List ℚ :=
  l.foldr
    (fun sr acc =>
      match acc with
      | [] => [sr.2]
      | c :: _ => (sr.2 - sr.1 * c) :: acc)
    []

/-- Cubic B-spline prefilter coefficients of a sample vector. -/
def splineCoeffs : List ℚ → List ℚ
  | [] => []
  | [y] => [y]
  | y0 :: y1 :: ys =>
      let s0 : ℚ := 2 / 4
      let r0 : ℚ := 6 * y0 / 4
      sdtBack ((s0, r0) :: sdtFwd (y1 :: ys) s0 r0)

/-- Mirror index handling for coefficient positions at or beyond the right
end of the array (`c[m + k]` is read as `c[m - 2 - k]`). -/
def mirrorIdx (m j : ℕ) : ℕ :=
  if m ≤ j then 2 * (m - 1) - j else j

/-- Cubic B-spline evaluation at the half-integer point `p + 1/2`:
the sampling grid of the source is `np.linspace(0.5, m - 1.5, n)` with
`m = n + 1`, i.e. exactly the points `0.5, 1.5, ..., n - 0.5`, and the
cubic B-spline at a midpoint weights the four surrounding coefficients by
`1/48, 23/48, 23/48, 1/48`; the coefficient at position `p - 1` is read
with the mirror convention `c[-1] = c[1]` when `p = 0`. -/
def sampledHalf (c : List ℚ) (p : ℕ) : ℚ :=
  let m := c.length
  let left : ℚ := if p = 0 then c.getD 1 0 else c.getD (mirrorIdx m (p - 1)) 0
  (left + 23 * c.getD (mirrorIdx m p) 0
      + 23 * c.getD (mirrorIdx m (p + 1)) 0
      + c.getD (mirrorIdx m (p + 2)) 0) / 48

/-- The per-pixel interpolated boundary distance of `compute_sdt`
(the value of `distances` before the `tanh` squash): for the single axis,
`np.minimum(np.inf, sampled) = sampled`. -/
def sdtDistance (labels : List ℤ) (p : ℕ) : ℚ :=
  sampledHalf (splineCoeffs (edtList (boundsPadded labels))) p

/-- Embedding of `compute_sdt`: squash the interpolated distances with
`tanh(d / scale)` and negate the result wherever the label mask is 0. -/
noncomputable def compute_sdt (labels : List ℤ) (scale : ℚ) : List ℝ :=
  (List.range labels.length).map (fun p =>
    if labels.getD p 0 = 0 then
      -Real.tanh ((sdtDistance labels p / scale : ℚ) : ℝ)
    else
      Real.tanh ((sdtDistance labels p / scale : ℚ) : ℝ))

/-! ## Local maxima detection (`find_local_maxima`)

The body of `find_local_maxima` is a fill-in blank in the notebook
(`seeds, number_of_seeds = ...`); only its interface, its hint
(use `maximum_filter`) and its caller are present.  It is modelled from the
spec: apply a maximum filter sized by the minimum-distance parameter, take
as seed candidates the positions whose value equals the filtered value,
label connected candidate regions with distinct positive ids, and return
the seed map together with the number of regions. -/

/-- Indices covered by the centred maximum-filter window of the given size
at position `p` (offsets `-(size / 2), ..., size - 1 - size / 2` as in
`scipy.ndimage.maximum_filter` with the default origin), with the default
`mode="reflect"` boundary handling (the edge sample itself is repeated:
index `-1-t` is read as `t`, index `n + t` as `n - 1 - t`). -/
def windowIdxs (n size p : ℕ) : List ℕ :=
  (List.range size).map (fun k =>
    let j := if p + k < size / 2 then size / 2 - (p + k) - 1 else p + k - size / 2
    min (n - 1) (if n ≤ j then 2 * n - 1 - j else j))

/-- Value of the maximum filter at one position. -/
def maxFilterAt (f : List ℚ) (size p : ℕ) : ℚ :=
  match (windowIdxs f.length size p).map (fun j => f.getD j 0) with
  | [] => f.getD p 0
  | v :: vs => vs.foldl max v

/-- Seed candidates: positions whose value equals the max-filtered value. -/
def candList (f : List ℚ) (size : ℕ) : List Bool :=
  (List.range f.length).map (fun p => f.getD p 0 == maxFilterAt f size p)

/-- Number of connected runs of `true` entries, given whether the previous
entry was `true` (the count of `scipy.ndimage.label` in one dimension). -/
def ccCount : List Bool → Bool → ℕ
  | [], _ => 0
  | b :: t, prev => (if b && !prev then 1 else 0) + ccCount t b

/-- Connected-component labels of the `true` runs: each run receives the
next positive id in order, `false` entries receive 0. -/
def ccLabels : List Bool → Bool → ℕ → List ℕ
  | [], _, _ => []
  | b :: t, prev, k =>
      if b then
        let k2 := if prev then k else k + 1
        k2 :: ccLabels t true k2
      else
        0 :: ccLabels t false k

/-- Modelled from the documented semantics of `scipy.ndimage.label` in one
dimension: label the connected `true` runs `1, 2, ...` and return the label
map together with the number of runs. -/
def label1 (bs : List Bool) : List ℕ × ℕ :=
  (ccLabels bs false 0, ccCount bs false)

/-- Modelled from the spec (4.3): the notebook body is a fill-in blank.
Maximum filter sized by the minimum-distance parameter, candidates where
the value equals the filtered value, connected candidates labeled into
distinct positive seed ids, count reported alongside. -/
def find_local_maxima (distance_transform : List ℚ) (min_dist_between_points : ℕ) :
    List ℕ × ℕ :=
  label1 (candList distance_transform min_dist_between_points)

/-- A field consisting of two unit impulses at positions `i` and `j` in an
otherwise zero background. -/
def impulseField (L i j : ℕ) : List ℚ :=
  (List.range L).map (fun p => if p = i ∨ p = j then 1 else 0)

/-! ## Seeded watershed (`watershed_from_boundary_distance`)

Source:
```
def watershed_from_boundary_distance(
    boundary_distances, inner_mask, id_offset=0, min_seed_distance=10):
    seeds, n = find_local_maxima(boundary_distances, min_seed_distance)
    if n == 0:
        return np.zeros(boundary_distances.shape, dtype=np.uint64), id_offset
    seeds[seeds != 0] += id_offset
    segmentation = watershed(
        boundary_distances.max() - boundary_distances, seeds, mask=inner_mask)
    return segmentation
```
`skimage.segmentation.watershed` is modelled from its documented contract:
regions grow from the markers in increasing order of image value (ties
resolved deterministically by position), restricted to the mask; positions
outside the mask keep label 0. -/

/-- Initial label state: the markers, restricted to the mask. -/
def wsInit (markers : List ℕ) (mask : List Bool) : List ℕ :=
  (List.range markers.length).map (fun p =>
    if mask.getD p false then markers.getD p 0 else 0)

/-- Neighbours of a position in the one-dimensional grid of size `n`. -/
def wsNbrs (n p : ℕ) : List ℕ :=
  (if p = 0 then [] else [p - 1]) ++ (if p + 1 < n then [p + 1] else [])

/-- A position can be flooded next when it is inside the mask, unlabeled,
and adjacent to a labeled position. -/
def wsCand (mask : List Bool) (lab : List ℕ) (p : ℕ) : Bool :=
  mask.getD p false && (lab.getD p 0 == 0)
    && (wsNbrs lab.length p).any (fun q => !(lab.getD q 0 == 0))

/-- The next position to flood: the floodable position with the least image
value, earliest position first on ties. -/
def wsPick (img : List ℚ) (mask : List Bool) (lab : List ℕ) : Option ℕ :=
  ((List.range lab.length).filter (fun p => wsCand mask lab p)).foldl
    (fun acc p =>
      match acc with
      | none => some p
      | some b => if img.getD p 0 < img.getD b 0 then some p else acc)
    none

/-- The label a flooded position receives: that of its first labeled
neighbour. -/
def wsAssign (lab : List ℕ) (p : ℕ) : ℕ :=
  match (wsNbrs lab.length p).filter (fun q => !(lab.getD q 0 == 0)) with
  | [] => 0
  | q :: _ => lab.getD q 0

/-- One flooding step: label the picked position, or do nothing when no
position is floodable. -/
def wsStep (img : List ℚ) (mask : List Bool) (lab : List ℕ) : List ℕ :=
  match wsPick img mask lab with
  | none => lab
  | some p => lab.set p (wsAssign lab p)

/-- Iterated flooding. -/
def wsRun : ℕ → List ℚ → List Bool → List ℕ → List ℕ
  | 0, _, _, lab => lab
  | k + 1, img, mask, lab => wsRun k img mask (wsStep img mask lab)

/-- Modelled from the documented contract of
`skimage.segmentation.watershed(image, markers, mask=...)`: flood the
basins of `image` from the markers, restricted to the mask (one step per
pixel suffices to reach the fixpoint). -/
def watershed (image : List ℚ) (markers : List ℕ) (mask : List Bool) : List ℕ :=
  wsRun image.length image mask (wsInit markers mask)

/-- Embedding of `boundary_distances.max()`. -/
def listMaxQ (l : List ℚ) : ℚ := l.foldl max (l.headD 0)

/-- Embedding of `seeds[seeds != 0] += id_offset`. -/
def offsetSeeds (seeds : List ℕ) (off : ℕ) : List ℕ :=
  seeds.map (fun s => if s = 0 then 0 else s + off)

/-- Embedding of `watershed_from_boundary_distance`.  The two branches of
the source return values of different arity — a pair
`(np.zeros(shape), id_offset)` when no seed is found, and the bare
segmentation array otherwise — so the result type is the sum of the two
shapes. -/
def watershed_from_boundary_distance (boundary_distances : List ℚ)
    (inner_mask : List Bool) (id_offset : ℕ) (min_seed_distance : ℕ) :
    (List ℕ × ℕ) ⊕ List ℕ :=
  if (find_local_maxima boundary_distances min_seed_distance).2 = 0 then
    Sum.inl (List.replicate boundary_distances.length 0, id_offset)
  else
    Sum.inr (watershed
      (boundary_distances.map (fun x => listMaxQ boundary_distances - x))
      (offsetSeeds (find_local_maxima boundary_distances min_seed_distance).1 id_offset)
      inner_mask)

/-- The segmentation array of either branch of
`watershed_from_boundary_distance`. -/
def segOf : (List ℕ × ℕ) ⊕ List ℕ → List ℕ
  | Sum.inl x => x.1
  | Sum.inr s => s

/-! ## Helper lemmas about the hyperbolic tangent squash -/

theorem tanh_lt_one (x : ℝ) : Real.tanh x < 1 := by
  rw [Real.tanh_eq_sinh_div_cosh]
  rw [div_lt_one (Real.cosh_pos x)]
  have h : Real.cosh x - Real.sinh x = Real.exp (-x) := Real.cosh_sub_sinh x
  have := Real.exp_pos (-x)
  linarith

theorem neg_one_lt_tanh (x : ℝ) : -1 < Real.tanh x := by
  rw [Real.tanh_eq_sinh_div_cosh]
  rw [lt_div_iff₀ (Real.cosh_pos x)]
  have h : Real.cosh x + Real.sinh x = Real.exp x := Real.cosh_add_sinh x
  have := Real.exp_pos x
  linarith

theorem tanh_pos_of_pos {x : ℝ} (h : 0 < x) : 0 < Real.tanh x := by
  rw [Real.tanh_eq_sinh_div_cosh]
  exact div_pos (Real.sinh_pos_iff.mpr h) (Real.cosh_pos x)

/-- Every entry of a `compute_sdt` output lies strictly between -1 and 1. -/
theorem compute_sdt_entry_mem {labels : List ℤ} {scale : ℚ} {x : ℝ}
    (hx : x ∈ compute_sdt labels scale) : -1 < x ∧ x < 1 := by
  unfold compute_sdt at hx
  rcases List.mem_map.mp hx with ⟨p, _, hpx⟩
  by_cases h0 : labels.getD p 0 = 0 <;> simp only [h0, if_pos, if_neg, if_true,
    if_false, reduceIte] at hpx <;> rw [← hpx]
  · constructor
    · have := tanh_lt_one ((sdtDistance labels p / scale : ℚ) : ℝ)
      linarith
    · have := neg_one_lt_tanh ((sdtDistance labels p / scale : ℚ) : ℝ)
      linarith
  · exact ⟨neg_one_lt_tanh _, tanh_lt_one _⟩

theorem compute_sdt_length (labels : List ℤ) (scale : ℚ) :
    (compute_sdt labels scale).length = labels.length := by
  simp [compute_sdt]

/-- Entry `p` of a `compute_sdt` output, in closed form. -/
theorem compute_sdt_getD (labels : List ℤ) (scale : ℚ) (p : ℕ)
    (hp : p < labels.length) :
    (compute_sdt labels scale).getD p 0 =
      if labels.getD p 0 = 0 then
        -Real.tanh ((sdtDistance labels p / scale : ℚ) : ℝ)
      else Real.tanh ((sdtDistance labels p / scale : ℚ) : ℝ) := by
  unfold compute_sdt
  rw [List.getD_eq_getElem?_getD, List.getElem?_map, List.getElem?_range hp]
  rfl

/-! ## Helper lemmas for uniform (boundary-free) label masks -/

theorem zipWith_beq_replicate (a : ℤ) : ∀ m n : ℕ,
    List.zipWith (fun x y => x == y) (List.replicate m a) (List.replicate n a) =
      List.replicate (min m n) true
  | 0, _ => by simp
  | _ + 1, 0 => by simp
  | m + 1, n + 1 => by
      simp only [List.replicate_succ, List.zipWith_cons_cons,
        zipWith_beq_replicate a m n, Nat.succ_min_succ, beq_self_eq_true]

theorem boundsList_replicate (n : ℕ) (c : ℤ) :
    boundsList (List.replicate n c) = List.replicate (n - 1) true := by
  unfold boundsList
  rw [List.tail_replicate, zipWith_beq_replicate]
  congr 1
  omega

theorem boundsPadded_replicate_all_true (n : ℕ) (c : ℤ) :
    ∀ x ∈ boundsPadded (List.replicate n c), x = true := by
  intro x hx
  unfold boundsPadded at hx
  rcases List.mem_cons.mp hx with h | h
  · exact h
  rcases List.mem_append.mp h with h2 | h2
  · rw [boundsList_replicate] at h2
    exact List.eq_of_mem_replicate h2
  · simpa using h2

theorem getD_replicate_self {α : Type} (a : α) : ∀ m j : ℕ,
    (List.replicate m a).getD j a = a
  | 0, _ => rfl
  | _ + 1, 0 => rfl
  | m + 1, j + 1 => by
      simp only [List.replicate_succ, List.getD_cons_succ]
      exact getD_replicate_self a m j

theorem zeroPositions_all_true (bs : List Bool) (h : ∀ x ∈ bs, x = true) :
    zeroPositions bs = [] := by
  unfold zeroPositions
  rw [List.filter_eq_nil_iff]
  intro j hj
  have hg : bs.getD j true = true := by
    rcases Nat.lt_or_ge j bs.length with hj2 | hj2
    · rw [List.getD_eq_getElem?_getD, List.getElem?_eq_getElem hj2]
      exact h _ (List.getElem_mem hj2)
    · rw [List.getD_eq_getElem?_getD, List.getElem?_eq_none hj2]
      rfl
  rw [List.getD_eq_getElem?_getD] at hg
  simp [hg]

theorem edtList_all_true (bs : List Bool) (h : ∀ x ∈ bs, x = true) :
    edtList bs = List.replicate bs.length 0 := by
  unfold edtList edtAt
  rw [zeroPositions_all_true bs h]
  simp

theorem sdtFwd_zero_snd : ∀ (k : ℕ) (s : ℚ),
    ∀ x ∈ sdtFwd (List.replicate k 0) s 0, x.2 = 0
  | 0, s => by simp [sdtFwd]
  | 1, s => by
      intro x hx
      simp only [List.replicate_succ, List.replicate_zero, sdtFwd,
        List.mem_singleton] at hx
      subst hx
      norm_num
  | k + 2, s => by
      intro x hx
      have hrep : List.replicate (k + 2) (0 : ℚ) = 0 :: 0 :: List.replicate k 0 := by
        simp [List.replicate_succ]
      rw [hrep] at hx
      rw [sdtFwd] at hx
      rcases List.mem_cons.mp hx with h | h
      · subst h
        norm_num
      · have h0 : ((6 : ℚ) * 0 - 0) / (4 - s) = 0 := by norm_num
        rw [h0] at h
        have hrep2 : (0 : ℚ) :: List.replicate k 0 = List.replicate (k + 1) 0 := by
          simp [List.replicate_succ]
        rw [hrep2] at h
        exact sdtFwd_zero_snd (k + 1) (1 / (4 - s)) x h

theorem sdtFwd_length : ∀ (l : List ℚ) (s r : ℚ), (sdtFwd l s r).length = l.length
  | [], _, _ => rfl
  | [_], _, _ => rfl
  | y :: y2 :: ys, s, r => by
      rw [sdtFwd]
      simp only [List.length_cons]
      rw [sdtFwd_length (y2 :: ys)]
      simp

theorem sdtBack_cons (x : ℚ × ℚ) (t : List (ℚ × ℚ)) :
    sdtBack (x :: t) =
      match sdtBack t with
      | [] => [x.2]
      | c :: rest => (x.2 - x.1 * c) :: c :: rest := by
  have hstep : sdtBack (x :: t) =
      (fun sr acc =>
        match acc with
        | [] => [sr.2]
        | c :: _ => (sr.2 - sr.1 * c) :: acc) x (sdtBack t) := rfl
  rw [hstep]
  cases sdtBack t <;> rfl

theorem sdtBack_length : ∀ t : List (ℚ × ℚ), (sdtBack t).length = t.length
  | [] => rfl
  | x :: t => by
      rw [sdtBack_cons]
      have IH := sdtBack_length t
      cases h : sdtBack t with
      | nil =>
          rw [h] at IH
          simp only [List.length_nil, List.length_cons] at IH ⊢
          omega
      | cons c rest =>
          rw [h] at IH
          simp only [List.length_cons] at IH ⊢
          omega

theorem sdtBack_zero : ∀ t : List (ℚ × ℚ), (∀ x ∈ t, x.2 = 0) →
    sdtBack t = List.replicate t.length 0
  | [], _ => rfl
  | x :: t, h => by
      rw [sdtBack_cons]
      have IH := sdtBack_zero t (fun y hy => h y (List.mem_cons_of_mem x hy))
      have hx : x.2 = 0 := h x (List.mem_cons_self x t)
      cases ht : t with
      | nil =>
          subst ht
          simp [IH, hx]
      | cons y t2 =>
          rw [ht] at IH
          simp only [List.length_cons, List.replicate_succ] at IH
          rw [IH]
          simp [hx, ht, List.replicate_succ]

theorem splineCoeffs_zero : ∀ m : ℕ,
    splineCoeffs (List.replicate m 0) = List.replicate m 0
  | 0 => rfl
  | 1 => rfl
  | m + 2 => by
      have hrep : List.replicate (m + 2) (0 : ℚ) = 0 :: 0 :: List.replicate m 0 := by
        simp [List.replicate_succ]
      rw [hrep, splineCoeffs]
      have hr0 : (6 : ℚ) * 0 / 4 = 0 := by norm_num
      have hrep2 : (0 : ℚ) :: List.replicate m 0 = List.replicate (m + 1) 0 := by
        simp [List.replicate_succ]
      rw [hr0, hrep2]
      have hall : ∀ x ∈ ((2 / 4 : ℚ), (0 : ℚ)) :: sdtFwd (List.replicate (m + 1) 0) (2 / 4) 0,
          x.2 = 0 := by
        intro x hx
        rcases List.mem_cons.mp hx with h | h
        · subst h; rfl
        · exact sdtFwd_zero_snd (m + 1) (2 / 4) x h
      rw [sdtBack_zero _ hall]
      simp [sdtFwd_length, List.replicate_succ]

theorem sampledHalf_replicate_zero (m p : ℕ) :
    sampledHalf (List.replicate m 0) p = 0 := by
  unfold sampledHalf
  simp only [getD_replicate_self]
  norm_num

theorem sdtDistance_replicate_zero (n p : ℕ) (c : ℤ) :
    sdtDistance (List.replicate n c) p = 0 := by
  unfold sdtDistance
  rw [edtList_all_true _ (boundsPadded_replicate_all_true n c), splineCoeffs_zero,
    sampledHalf_replicate_zero]

theorem tanh_neg_of_neg {x : ℝ} (h : x < 0) : Real.tanh x < 0 := by
  have hp := tanh_pos_of_pos (neg_pos.mpr h)
  rw [Real.tanh_neg] at hp
  linarith

/-! ## Concrete evaluations of the interpolated distance -/

theorem sdtDistance_at_123 : sdtDistance [1, 2, 3] 1 = -(1 / 4 : ℚ) := by
  have he : edtList (boundsPadded [1, 2, 3]) = [1, 0, 0, 1] := by decide
  unfold sdtDistance
  rw [he]
  norm_num [splineCoeffs, sdtFwd, sdtBack, sampledHalf, mirrorIdx]

theorem sdtDistance_at_12 : sdtDistance [1, 2] 0 = (1 / 2 : ℚ) := by
  have he : edtList (boundsPadded [1, 2]) = [1, 0, 1] := by decide
  unfold sdtDistance
  rw [he]
  norm_num [splineCoeffs, sdtFwd, sdtBack, sampledHalf, mirrorIdx]

theorem sdtDistance_edge_five : sdtDistance [7, 7, 7, 7, 1] 0 = (3061 / 836 : ℚ) := by
  have he : edtList (boundsPadded [7, 7, 7, 7, 1]) = [4, 3, 2, 1, 0, 1] := by decide
  unfold sdtDistance
  rw [he]
  norm_num [splineCoeffs, sdtFwd, sdtBack, sampledHalf, mirrorIdx]

theorem sdtDistance_edge_eight :
    sdtDistance [7, 7, 7, 7, 7, 7, 7, 1] 0 = (289349 / 43456 : ℚ) := by
  have he : edtList (boundsPadded [7, 7, 7, 7, 7, 7, 7, 1]) =
      [7, 6, 5, 4, 3, 2, 1, 0, 1] := by decide
  unfold sdtDistance
  rw [he]
  norm_num [splineCoeffs, sdtFwd, sdtBack, sampledHalf, mirrorIdx]

/-! ## Claim theorems for `compute_sdt` -/

/-- C1: for every label mask and every scale > 0, `compute_sdt` returns an
array of exactly the same shape as the input whose every value lies
strictly within the open interval (-1, 1). -/
theorem compute_sdt_shape_and_range (labels : List ℤ) (scale : ℚ)
    (_hs : 0 < scale) :
    (compute_sdt labels scale).length = labels.length ∧
      ∀ x ∈ compute_sdt labels scale, -1 < x ∧ x < 1 :=
  ⟨compute_sdt_length labels scale, fun _ hx => compute_sdt_entry_mem hx⟩

/-- Witness for C1 at the concrete mask `[1, 0, 2]` with scale 5. -/
theorem compute_sdt_shape_and_range_witness :
    (0 : ℚ) < 5 ∧ ((compute_sdt [1, 0, 2] 5).length = ([1, 0, 2] : List ℤ).length ∧
      ∀ x ∈ compute_sdt [1, 0, 2] 5, -1 < x ∧ x < 1) :=
  ⟨by norm_num, compute_sdt_shape_and_range [1, 0, 2] 5 (by norm_num)⟩

/-- C2 counterexample: on the mask `[1, 2, 3]` the middle position carries
the non-zero (foreground) label 2, yet the `compute_sdt` output there is
negative: the cubic interpolation of the distance data `[1, 0, 0, 1]`
undershoots to -1/4 at the midpoint between the two adjacent boundaries,
and the squash preserves that sign.  So the output sign does not always
match foreground membership. -/
theorem compute_sdt_sign_counterexample :
    ([1, 2, 3] : List ℤ).getD 1 0 ≠ 0 ∧
      (compute_sdt [1, 2, 3] 5).getD 1 0 < 0 := by
  refine ⟨by decide, ?_⟩
  rw [compute_sdt_getD [1, 2, 3] 5 1 (by norm_num)]
  have h2 : ([1, 2, 3] : List ℤ).getD 1 0 = 2 := by decide
  rw [h2, if_neg (by norm_num), sdtDistance_at_123]
  apply tanh_neg_of_neg
  have hc : (-(1 / 4 : ℚ)) / 5 = -(1 / 20 : ℚ) := by norm_num
  rw [hc, Rat.cast_neg]
  norm_num

/-- C2 (amended): `compute_sdt` negates the squashed value exactly at the
background (label 0) positions; whenever the interpolated boundary
distance at a position is positive the output sign therefore matches
foreground/background membership (positive on foreground, negative on
background) — but the cubic interpolation can make that distance
non-positive, so the sign match is conditional.  On an all-zero mask every
output value is ≤ 0. -/
theorem compute_sdt_sign_flip_amended :
    (∀ (labels : List ℤ) (scale : ℚ) (p : ℕ), p < labels.length →
      (compute_sdt labels scale).getD p 0 =
        (if labels.getD p 0 = 0
          then -Real.tanh ((sdtDistance labels p / scale : ℚ) : ℝ)
          else Real.tanh ((sdtDistance labels p / scale : ℚ) : ℝ)) ∧
      (0 < scale → 0 < sdtDistance labels p →
        (labels.getD p 0 ≠ 0 → 0 < (compute_sdt labels scale).getD p 0) ∧
        (labels.getD p 0 = 0 → (compute_sdt labels scale).getD p 0 < 0))) ∧
    ∀ (n : ℕ) (scale : ℚ), ∀ x ∈ compute_sdt (List.replicate n 0) scale, x ≤ 0 := by
  constructor
  · intro labels scale p hp
    have hg := compute_sdt_getD labels scale p hp
    refine ⟨hg, fun hscale hd => ?_⟩
    have hpos : (0 : ℝ) < ((sdtDistance labels p / scale : ℚ) : ℝ) := by
      rw [Rat.cast_pos]
      exact div_pos hd hscale
    constructor
    · intro h0
      rw [hg, if_neg h0]
      exact tanh_pos_of_pos hpos
    · intro h0
      rw [hg, if_pos h0]
      have := tanh_pos_of_pos hpos
      linarith
  · intro n scale x hx
    unfold compute_sdt at hx
    rcases List.mem_map.mp hx with ⟨p, _, hpx⟩
    rw [getD_replicate_self, if_pos rfl, sdtDistance_replicate_zero] at hpx
    rw [← hpx]
    simp

/-- Witness for the amended C2 at the mask `[1, 2]` with scale 5, where the
interpolated distance at position 0 is 1/2 > 0 and the label is 1 ≠ 0. -/
theorem compute_sdt_sign_flip_amended_witness :
    (0 : ℚ) < 5 ∧ 0 < sdtDistance [1, 2] 0 ∧
      0 < (compute_sdt [1, 2] 5).getD 0 0 := by
  have h := compute_sdt_sign_flip_amended
  have hd : 0 < sdtDistance [1, 2] 0 := by rw [sdtDistance_at_12]; norm_num
  exact ⟨by norm_num, hd,
    ((h.1 [1, 2] 5 0 (by norm_num)).2 (by norm_num) hd).1 (by decide)⟩

/-- C3 counterexample: the source pads the adjacent-label equality
indicator with `1` (that is, `true`), which is the value marking
"labels equal / not a boundary" — a boundary position carries `false`, as
the differing pair `[1, 2]` shows.  Consequently the image border does not
act as a boundary: for a mask that is uniform except for one far boundary,
the distance at the left domain-edge pixel exceeds 1/2 (the value the
claimed edge padding would give) and grows as the uniform run lengthens,
and for a fully uniform mask the padded indicator holds no boundary
at all. -/
theorem sdt_pad_counterexample :
    boundsList [1, 2] = [false] ∧
      boundsPadded [1, 2] = [true, false, true] ∧
      boundsPadded [7, 7, 7] = [true, true, true, true] ∧
      (1 / 2 : ℚ) < sdtDistance [7, 7, 7, 7, 1] 0 ∧
      sdtDistance [7, 7, 7, 7, 1] 0 < sdtDistance [7, 7, 7, 7, 7, 7, 7, 1] 0 := by
  refine ⟨by decide, by decide, by decide, ?_, ?_⟩
  · rw [sdtDistance_edge_five]
    norm_num
  · rw [sdtDistance_edge_five, sdtDistance_edge_eight]
    norm_num

/-- C3 (amended): for each axis the per-axis indicator marks boundaries
with `false` (adjacent labels differ) and is padded at both domain edges
with `true`, the value meaning "not a boundary" — the labels are treated
as continuing past the border, so the border does not act as a boundary;
in particular a uniform mask yields an indicator with no boundary
anywhere. -/
theorem sdt_pad_amended (labels : List ℤ) (n : ℕ) (c : ℤ) (a : ℤ) :
    (boundsPadded labels).head? = some true ∧
      (boundsPadded labels).getLast? = some true ∧
      boundsList [a, a + 1] = [false] ∧
      ∀ x ∈ boundsPadded (List.replicate n c), x = true := by
  refine ⟨rfl, ?_, ?_, boundsPadded_replicate_all_true n c⟩
  · show (true :: (boundsList labels ++ [true])).getLast? = some true
    rw [← List.cons_append]
    exact List.getLast?_concat _
  · unfold boundsList
    simp

/-- C4: on an all-background mask and on a uniform all-foreground mask,
with scale > 0, every `compute_sdt` output value lies in the open interval
(-1, 1); in particular the computation yields well-defined finite values
with no NaN. -/
theorem compute_sdt_degenerate_finite (n : ℕ) (c : ℤ) (scale : ℚ)
    (_hs : 0 < scale) :
    (∀ x ∈ compute_sdt (List.replicate n 0) scale, -1 < x ∧ x < 1) ∧
      ∀ x ∈ compute_sdt (List.replicate n c) scale, -1 < x ∧ x < 1 :=
  ⟨fun _ hx => compute_sdt_entry_mem hx, fun _ hx => compute_sdt_entry_mem hx⟩

/-- Witness for C4 with a length-4 all-zero mask and a uniform label-7
mask at scale 5. -/
theorem compute_sdt_degenerate_finite_witness :
    (0 : ℚ) < 5 ∧
      ((∀ x ∈ compute_sdt (List.replicate 4 0) 5, -1 < x ∧ x < 1) ∧
        ∀ x ∈ compute_sdt (List.replicate 4 7) 5, -1 < x ∧ x < 1) :=
  ⟨by norm_num, compute_sdt_degenerate_finite 4 7 5 (by norm_num)⟩

/-! ## Helper lemmas for the maximum filter and run labeling -/

theorem getD_range_map {β : Type} (f : ℕ → β) (d : β) (n p : ℕ) :
    ((List.range n).map f).getD p d = if p < n then f p else d := by
  rcases Nat.lt_or_ge p n with h | h
  · rw [List.getD_eq_getElem?_getD, List.getElem?_map, List.getElem?_range h,
      if_pos h]
    rfl
  · rw [List.getD_eq_getElem?_getD, List.getElem?_eq_none, if_neg (by omega)]
    · rfl
    · simpa using h

theorem le_foldl_max (l : List ℚ) : ∀ a : ℚ, a ≤ l.foldl max a := by
  induction l with
  | nil => intro a; exact le_refl a
  | cons x t ih =>
      intro a
      calc a ≤ max a x := le_max_left a x
        _ ≤ t.foldl max (max a x) := ih (max a x)
        _ = (x :: t).foldl max a := rfl

theorem mem_le_foldl_max (l : List ℚ) : ∀ (a x : ℚ), x ∈ l → x ≤ l.foldl max a := by
  induction l with
  | nil => intro a x hx; cases hx
  | cons y t ih =>
      intro a x hx
      rcases List.mem_cons.mp hx with h | h
      · rw [h]
        calc y ≤ max a y := le_max_right a y
          _ ≤ t.foldl max (max a y) := le_foldl_max t (max a y)
          _ = (y :: t).foldl max a := rfl
      · exact ih (max a y) x h

theorem foldl_max_le (l : List ℚ) : ∀ (a b : ℚ), a ≤ b → (∀ x ∈ l, x ≤ b) →
    l.foldl max a ≤ b := by
  induction l with
  | nil => intro a b ha _; exact ha
  | cons y t ih =>
      intro a b ha h
      refine ih (max a y) b (max_le ha (h y (List.mem_cons_self y t))) ?_
      intro x hx
      exact h x (List.mem_cons_of_mem y hx)

/-- The maximum filter value is at least any value appearing in the
window. -/
theorem le_maxFilterAt (f : List ℚ) (size p q : ℕ)
    (hq : q ∈ windowIdxs f.length size p) : f.getD q 0 ≤ maxFilterAt f size p := by
  unfold maxFilterAt
  have hmem : f.getD q 0 ∈ (windowIdxs f.length size p).map (fun j => f.getD j 0) :=
    List.mem_map.mpr ⟨q, hq, rfl⟩
  cases hw : (windowIdxs f.length size p).map (fun j => f.getD j 0) with
  | nil => rw [hw] at hmem; cases hmem
  | cons v vs =>
      rw [hw] at hmem
      rcases List.mem_cons.mp hmem with h | h
      · rw [← h]; exact le_foldl_max vs _
      · exact mem_le_foldl_max vs v _ h

/-- The maximum filter value is bounded by any bound on the array values
(windows only read array values, with default 0). -/
theorem maxFilterAt_le (f : List ℚ) (size p : ℕ) (b : ℚ)
    (hb : ∀ q : ℕ, f.getD q 0 ≤ b) : maxFilterAt f size p ≤ b := by
  unfold maxFilterAt
  cases hw : (windowIdxs f.length size p).map (fun j => f.getD j 0) with
  | nil => exact hb p
  | cons v vs =>
      have hv : v ∈ v :: vs := List.mem_cons_self v vs
      rw [← hw] at hv
      rcases List.mem_map.mp hv with ⟨q, _, hq⟩
      refine foldl_max_le vs v b (hq ▸ hb q) ?_
      intro x hx
      have hx2 : x ∈ v :: vs := List.mem_cons_of_mem v hx
      rw [← hw] at hx2
      rcases List.mem_map.mp hx2 with ⟨q2, _, hq2⟩
      exact hq2 ▸ hb q2

/-- A position inside the array belongs to its own filter window whenever
the window is nonempty. -/
theorem self_mem_windowIdxs (n size p : ℕ) (hsize : 1 ≤ size) (hp : p < n) :
    p ∈ windowIdxs n size p := by
  unfold windowIdxs
  apply List.mem_map.mpr
  refine ⟨size / 2, ?_, ?_⟩
  · exact List.mem_range.mpr (by omega)
  · simp only []
    rw [if_neg (show ¬(p + size / 2 < size / 2) by omega)]
    have h1 : p + size / 2 - size / 2 = p := by omega
    rw [h1, if_neg (show ¬(n ≤ p) by omega)]
    exact min_eq_right (by omega)

theorem ccCount_append (ys : List Bool) : ∀ (xs : List Bool) (prev : Bool),
    ccCount (xs ++ ys) prev = ccCount xs prev + ccCount ys (xs.getLastD prev) := by
  intro xs
  induction xs with
  | nil => intro prev; simp [ccCount]
  | cons b t ih =>
      intro prev
      rw [List.cons_append]
      show (if b && !prev then 1 else 0) + ccCount (t ++ ys) b = _
      rw [ih b]
      have hlast : (b :: t).getLastD prev = t.getLastD b := by
        cases t <;> simp [List.getLastD]
      rw [hlast]
      show _ = (if b && !prev then 1 else 0) + ccCount t b + ccCount ys (t.getLastD b)
      omega

theorem ccCount_replicate_false (prev : Bool) : ∀ k : ℕ,
    ccCount (List.replicate k false) prev = 0 := by
  intro k
  induction k generalizing prev with
  | zero => rfl
  | succ m ih =>
      rw [List.replicate_succ]
      show (if false && !prev then 1 else 0) + ccCount (List.replicate m false) false = 0
      rw [ih false]
      simp

theorem getLastD_replicate_false (prev : Bool) (k : ℕ) (hk : 1 ≤ k) :
    (List.replicate k false).getLastD prev = false := by
  cases k with
  | zero => omega
  | succ m =>
      rw [List.getLastD_eq_getLast?, List.getLast?_replicate]
      simp

theorem map_range_split (g : ℕ → Bool) (a b : ℕ) :
    (List.range (a + b)).map g =
      (List.range a).map g ++ (List.range b).map (fun t => g (a + t)) := by
  rw [List.range_add, List.map_append, List.map_map]
  rfl

theorem map_range_false (g : ℕ → Bool) (a : ℕ) (h : ∀ t, t < a → g t = false) :
    (List.range a).map g = List.replicate a false := by
  rw [List.eq_replicate_iff]
  refine ⟨by simp, ?_⟩
  intro b hb
  rcases List.mem_map.mp hb with ⟨t, ht, rfl⟩
  exact h t (List.mem_range.mp ht)

/-- The candidate indicator of a field with exactly two isolated impulse
marks, written as explicit runs. -/
theorem range_map_marks (L i j : ℕ) (hij : i + 2 ≤ j) (hjL : j < L) :
    (List.range L).map (fun p => decide (p = i ∨ p = j)) =
      List.replicate i false ++ true ::
        (List.replicate (j - i - 1) false ++ true :: List.replicate (L - j - 1) false) := by
  have hL : i + (1 + ((j - i - 1) + (1 + (L - j - 1)))) = L := by omega
  conv_lhs => rw [← hL]
  rw [map_range_split]
  congr 1
  · apply map_range_false
    intro t ht
    simp only [decide_eq_false_iff_not]
    omega
  rw [map_range_split]
  have hhead : (List.range 1).map
      (fun t => decide (i + t = i ∨ i + t = j)) = [true] := by
    simp [List.range_succ]
  rw [hhead, List.singleton_append]
  congr 1
  rw [map_range_split]
  congr 1
  · apply map_range_false
    intro t ht
    simp only [decide_eq_false_iff_not]
    omega
  rw [map_range_split]
  have hh2 : (List.range 1).map
      (fun t => decide (i + (1 + (j - i - 1 + t)) = i ∨
        i + (1 + (j - i - 1 + t)) = j)) = [true] := by
    simp [List.range_succ]
    omega
  rw [hh2, List.singleton_append]
  congr 1
  apply map_range_false
  intro t ht
  simp only [decide_eq_false_iff_not]
  omega

theorem ccCount_two_marks (a b c : ℕ) :
    ccCount (List.replicate a false ++ true ::
      (List.replicate (b + 1) false ++ true :: List.replicate c false)) false = 2 := by
  rw [ccCount_append]
  have h1 : (List.replicate a false).getLastD false = false := by
    cases a with
    | zero => rfl
    | succ m => exact getLastD_replicate_false false (m + 1) (by omega)
  rw [h1, ccCount_replicate_false]
  show 0 + ((if true && !false then 1 else 0) +
    ccCount (List.replicate (b + 1) false ++ true :: List.replicate c false) true) = 2
  rw [ccCount_append, ccCount_replicate_false,
    getLastD_replicate_false true (b + 1) (by omega)]
  show 0 + (1 + (0 + ((if true && !false then 1 else 0) +
    ccCount (List.replicate c false) true))) = 2
  rw [ccCount_replicate_false]
  simp

theorem impulseField_length (L i j : ℕ) : (impulseField L i j).length = L := by
  simp [impulseField]

theorem impulseField_getD_of_lt (L i j p : ℕ) (hp : p < L) :
    (impulseField L i j).getD p 0 = if p = i ∨ p = j then 1 else 0 := by
  unfold impulseField
  rw [getD_range_map, if_pos hp]

theorem impulseField_getD_le_one (L i j q : ℕ) :
    (impulseField L i j).getD q 0 ≤ 1 := by
  unfold impulseField
  rw [getD_range_map]
  split_ifs <;> norm_num

theorem maxFilterAt_impulse_one (L i j d p : ℕ) (hiL : i < L) (hjL : j < L)
    (hwin : i ∈ windowIdxs L d p ∨ j ∈ windowIdxs L d p) :
    maxFilterAt (impulseField L i j) d p = 1 := by
  have hlen : (impulseField L i j).length = L := impulseField_length L i j
  apply le_antisymm
  · exact maxFilterAt_le _ _ _ 1 (fun q => impulseField_getD_le_one L i j q)
  · rcases hwin with h | h
    · have h2 : (impulseField L i j).getD i 0 ≤ maxFilterAt (impulseField L i j) d p := by
        apply le_maxFilterAt
        rw [hlen]
        exact h
      rw [impulseField_getD_of_lt L i j i hiL] at h2
      simpa using h2
    · have h2 : (impulseField L i j).getD j 0 ≤ maxFilterAt (impulseField L i j) d p := by
        apply le_maxFilterAt
        rw [hlen]
        exact h
      rw [impulseField_getD_of_lt L i j j hjL] at h2
      simpa using h2

theorem candList_impulse (L i j d : ℕ) (hiL : i < L) (hjL : j < L)
    (hw : ∀ p, p < L → i ∈ windowIdxs L d p ∨ j ∈ windowIdxs L d p) :
    candList (impulseField L i j) d =
      (List.range L).map (fun p => decide (p = i ∨ p = j)) := by
  unfold candList
  rw [impulseField_length]
  apply List.map_congr_left
  intro p hp0
  have hp : p < L := List.mem_range.mp hp0
  rw [maxFilterAt_impulse_one L i j d p hiL hjL (hw p hp),
    impulseField_getD_of_lt L i j p hp]
  by_cases hc : p = i ∨ p = j
  · rw [if_pos hc]
    simp [hc]
  · rw [if_neg hc]
    simp [hc, beq_eq_false_iff_ne]

/-! ## Claim theorems for `find_local_maxima` -/

/-- C9 counterexample: the field with two unit impulses at positions 1 and
4 (distance 3, at least the minimum distance 2) in an otherwise zero
background of length 7 yields 3 seeds, not 2: the background plateau whose
filter window sees no impulse is also locally maximal (its value equals the
filtered value) and is labeled as a further seed region. -/
theorem find_local_maxima_counterexample :
    impulseField 7 1 4 = [0, 1, 0, 0, 1, 0, 0] ∧
      2 ≤ 4 - 1 ∧
      (find_local_maxima (impulseField 7 1 4) 2).2 = 3 ∧
      (find_local_maxima (impulseField 7 1 4) 2).2 ≠ 2 := by
  refine ⟨by decide, by norm_num, by decide, by decide⟩

/-- C9 (amended): `find_local_maxima` pairs a seed map of distinct
positive run labels with the count of runs; on a field of two unit
impulses at positions `i < j` at least `min_dist ≥ 2` apart in a zero
background it returns exactly 2 seeds provided every filter window
contains one of the impulses (otherwise locally-maximal background
plateaus contribute additional seeds). -/
theorem find_local_maxima_two_impulses (L i j d : ℕ) (hij : i + 2 ≤ j)
    (hjL : j < L) (_hd : 2 ≤ d) (_hsep : d ≤ j - i)
    (hw : ∀ p, p < L → i ∈ windowIdxs L d p ∨ j ∈ windowIdxs L d p) :
    (find_local_maxima (impulseField L i j) d).2 = 2 := by
  show ccCount (candList (impulseField L i j) d) false = 2
  rw [candList_impulse L i j d (by omega) hjL hw, range_map_marks L i j hij hjL]
  have hsplit : j - i - 1 = (j - i - 2) + 1 := by omega
  rw [hsplit]
  exact ccCount_two_marks i (j - i - 2) (L - j - 1)

/-- Witness for the amended C9: impulses at positions 0 and 2 of a
length-3 field with minimum distance 2; every window meets an impulse. -/
theorem find_local_maxima_two_impulses_witness :
    ((0 : ℕ) + 2 ≤ 2 ∧ 2 < 3 ∧ 2 ≤ 2 ∧ 2 ≤ 2 - 0 ∧
      (∀ p, p < 3 → 0 ∈ windowIdxs 3 2 p ∨ 2 ∈ windowIdxs 3 2 p)) ∧
      (find_local_maxima (impulseField 3 0 2) 2).2 = 2 := by
  refine ⟨⟨by norm_num, by norm_num, by norm_num, by norm_num, by decide⟩, ?_⟩
  exact find_local_maxima_two_impulses 3 0 2 2 (by norm_num) (by norm_num)
    (by norm_num) (by norm_num) (by decide)

/-! ## Helper lemmas for the watershed -/

theorem getD_set_of_ne (l : List ℕ) (p q v : ℕ) (h : p ≠ q) :
    (l.set p v).getD q 0 = l.getD q 0 := by
  rw [List.getD_eq_getElem?_getD, List.getD_eq_getElem?_getD, List.getElem?_set,
    if_neg h]

theorem getD_set_self (l : List ℕ) (p v : ℕ) (hp : p < l.length) :
    (l.set p v).getD p 0 = v := by
  rw [List.getD_eq_getElem?_getD, List.getElem?_set, if_pos rfl, if_pos hp]
  rfl

theorem pick_fold_mem (img : List ℚ) : ∀ (l : List ℕ) (acc : Option ℕ) (p0 : ℕ),
    l.foldl (fun acc p =>
      match acc with
      | none => some p
      | some b => if img.getD p 0 < img.getD b 0 then some p else acc) acc = some p0 →
    p0 ∈ l ∨ acc = some p0 := by
  intro l
  induction l with
  | nil => intro acc p0 h; exact Or.inr h
  | cons x t ih =>
      intro acc p0 h
      rw [List.foldl_cons] at h
      rcases ih _ p0 h with h2 | h2
      · exact Or.inl (List.mem_cons_of_mem x h2)
      · cases acc with
        | none =>
            have hx : x = p0 := by simpa using h2
            exact Or.inl (hx ▸ List.mem_cons_self x t)
        | some b =>
            have h3 : (if img.getD x 0 < img.getD b 0 then some x else some b) =
                some p0 := h2
            by_cases hc : img.getD x 0 < img.getD b 0
            · rw [if_pos hc] at h3
              have hx : x = p0 := Option.some.inj h3
              exact Or.inl (hx ▸ List.mem_cons_self x t)
            · rw [if_neg hc] at h3
              exact Or.inr h3

theorem wsPick_mem_cand (img : List ℚ) (mask : List Bool) (lab : List ℕ) (p0 : ℕ)
    (h : wsPick img mask lab = some p0) :
    wsCand mask lab p0 = true ∧ p0 < lab.length := by
  unfold wsPick at h
  rcases pick_fold_mem img _ none p0 h with h2 | h2
  · have hm := List.mem_filter.mp h2
    exact ⟨hm.2, List.mem_range.mp hm.1⟩
  · cases h2

theorem wsStep_mask_inv (img : List ℚ) (mask : List Bool) (lab : List ℕ)
    (h : ∀ p, mask.getD p false = false → lab.getD p 0 = 0) :
    ∀ p, mask.getD p false = false → (wsStep img mask lab).getD p 0 = 0 := by
  intro p hp
  unfold wsStep
  cases hpick : wsPick img mask lab with
  | none => exact h p hp
  | some p0 =>
      rcases wsPick_mem_cand img mask lab p0 hpick with ⟨hcand, _⟩
      by_cases hpq : p0 = p
      · unfold wsCand at hcand
        rw [hpq, hp] at hcand
        simp at hcand
      · rw [getD_set_of_ne _ _ _ _ hpq]
        exact h p hp

theorem wsRun_mask_inv : ∀ (k : ℕ) (img : List ℚ) (mask : List Bool) (lab : List ℕ),
    (∀ p, mask.getD p false = false → lab.getD p 0 = 0) →
    ∀ p, mask.getD p false = false → (wsRun k img mask lab).getD p 0 = 0 := by
  intro k
  induction k with
  | zero => intro img mask lab h p hp; exact h p hp
  | succ m ih =>
      intro img mask lab h p hp
      exact ih img mask (wsStep img mask lab) (wsStep_mask_inv img mask lab h) p hp

theorem wsStep_label_inv (img : List ℚ) (mask : List Bool) (lab m0 : List ℕ)
    (h : ∀ p, lab.getD p 0 ≠ 0 → ∃ q, q < m0.length ∧ m0.getD q 0 = lab.getD p 0) :
    ∀ p, (wsStep img mask lab).getD p 0 ≠ 0 →
      ∃ q, q < m0.length ∧ m0.getD q 0 = (wsStep img mask lab).getD p 0 := by
  intro p hp
  cases hpick : wsPick img mask lab with
  | none =>
      have hw : wsStep img mask lab = lab := by
        unfold wsStep
        rw [hpick]
      rw [hw] at hp ⊢
      exact h p hp
  | some p0 =>
      have hw : wsStep img mask lab = lab.set p0 (wsAssign lab p0) := by
        unfold wsStep
        rw [hpick]
      rw [hw] at hp ⊢
      rcases wsPick_mem_cand img mask lab p0 hpick with ⟨_, hlt⟩
      by_cases hpq : p0 = p
      · subst hpq
        rw [getD_set_self _ _ _ hlt] at hp ⊢
        cases hfil : (wsNbrs lab.length p0).filter (fun q => !(lab.getD q 0 == 0)) with
        | nil =>
            have ha : wsAssign lab p0 = 0 := by
              unfold wsAssign
              rw [hfil]
            rw [ha] at hp
            cases hp rfl
        | cons q0 rest =>
            have ha : wsAssign lab p0 = lab.getD q0 0 := by
              unfold wsAssign
              rw [hfil]
            rw [ha] at hp ⊢
            have hq0 : q0 ∈ (wsNbrs lab.length p0).filter (fun q => !(lab.getD q 0 == 0)) := by
              rw [hfil]
              exact List.mem_cons_self q0 rest
            have hne : lab.getD q0 0 ≠ 0 := by
              simpa using (List.mem_filter.mp hq0).2
            exact h q0 hne
      · rw [getD_set_of_ne _ _ _ _ hpq] at hp ⊢
        exact h p hp

theorem wsRun_label_inv : ∀ (k : ℕ) (img : List ℚ) (mask : List Bool) (lab m0 : List ℕ),
    (∀ p, lab.getD p 0 ≠ 0 → ∃ q, q < m0.length ∧ m0.getD q 0 = lab.getD p 0) →
    ∀ p, (wsRun k img mask lab).getD p 0 ≠ 0 →
      ∃ q, q < m0.length ∧ m0.getD q 0 = (wsRun k img mask lab).getD p 0 := by
  intro k
  induction k with
  | zero => intro img mask lab m0 h p hp; exact h p hp
  | succ m ih =>
      intro img mask lab m0 h p hp
      exact ih img mask (wsStep img mask lab) m0 (wsStep_label_inv img mask lab m0 h) p hp

theorem wsStep_length (img : List ℚ) (mask : List Bool) (lab : List ℕ) :
    (wsStep img mask lab).length = lab.length := by
  unfold wsStep
  cases wsPick img mask lab with
  | none => rfl
  | some p0 => simp

theorem wsRun_length : ∀ (k : ℕ) (img : List ℚ) (mask : List Bool) (lab : List ℕ),
    (wsRun k img mask lab).length = lab.length := by
  intro k
  induction k with
  | zero => intro img mask lab; rfl
  | succ m ih =>
      intro img mask lab
      rw [wsRun, ih, wsStep_length]

theorem wsInit_getD (markers : List ℕ) (mask : List Bool) (p : ℕ) :
    (wsInit markers mask).getD p 0 =
      if p < markers.length then
        (if mask.getD p false then markers.getD p 0 else 0)
      else 0 := by
  unfold wsInit
  rw [getD_range_map]

theorem wsInit_length (markers : List ℕ) (mask : List Bool) :
    (wsInit markers mask).length = markers.length := by
  simp [wsInit]

theorem watershed_length (img : List ℚ) (markers : List ℕ) (mask : List Bool) :
    (watershed img markers mask).length = markers.length := by
  unfold watershed
  rw [wsRun_length, wsInit_length]

theorem watershed_mask_zero (img : List ℚ) (markers : List ℕ) (mask : List Bool)
    (p : ℕ) (hp : mask.getD p false = false) :
    (watershed img markers mask).getD p 0 = 0 := by
  unfold watershed
  refine wsRun_mask_inv _ img mask _ ?_ p hp
  intro q hq
  rw [wsInit_getD, hq]
  simp

theorem watershed_label_mem (img : List ℚ) (markers : List ℕ) (mask : List Bool)
    (p : ℕ) (hp : (watershed img markers mask).getD p 0 ≠ 0) :
    ∃ q, q < markers.length ∧
      markers.getD q 0 = (watershed img markers mask).getD p 0 := by
  unfold watershed at hp ⊢
  refine wsRun_label_inv _ img mask _ markers ?_ p hp
  intro q hq
  rw [wsInit_getD] at hq ⊢
  by_cases h1 : q < markers.length
  · rw [if_pos h1] at hq ⊢
    by_cases h2 : mask.getD q false
    · rw [if_pos h2] at hq ⊢
      exact ⟨q, h1, rfl⟩
    · rw [if_neg h2] at hq
      cases hq rfl
  · rw [if_neg h1] at hq
    cases hq rfl

theorem getD_map_add (c : ℚ) (img : List ℚ) (p : ℕ) (hp : p < img.length) :
    (img.map (fun x => c + x)).getD p 0 = c + img.getD p 0 := by
  rw [List.getD_eq_getElem?_getD, List.getD_eq_getElem?_getD, List.getElem?_map,
    List.getElem?_eq_getElem hp]
  rfl

theorem pick_fold_shift (c : ℚ) (img : List ℚ) : ∀ (l : List ℕ) (acc : Option ℕ),
    (∀ x ∈ l, x < img.length) → (∀ b, acc = some b → b < img.length) →
    l.foldl (fun acc p =>
      match acc with
      | none => some p
      | some b =>
          if (img.map (fun x => c + x)).getD p 0 < (img.map (fun x => c + x)).getD b 0
          then some p else acc) acc =
    l.foldl (fun acc p =>
      match acc with
      | none => some p
      | some b => if img.getD p 0 < img.getD b 0 then some p else acc) acc := by
  intro l
  induction l with
  | nil => intro acc _ _; rfl
  | cons x t ih =>
      intro acc hl hacc
      have hx : x < img.length := hl x (List.mem_cons_self x t)
      have htail : ∀ y ∈ t, y < img.length :=
        fun y hy => hl y (List.mem_cons_of_mem x hy)
      cases acc with
      | none =>
          rw [List.foldl_cons, List.foldl_cons]
          show List.foldl _ (some x) t = List.foldl _ (some x) t
          exact ih (some x) htail (fun b hb => Option.some.inj hb ▸ hx)
      | some b0 =>
          rw [List.foldl_cons, List.foldl_cons]
          have hb0 : b0 < img.length := hacc b0 rfl
          by_cases hc : img.getD x 0 < img.getD b0 0
          · have hmc : (img.map (fun x => c + x)).getD x 0 <
                (img.map (fun x => c + x)).getD b0 0 := by
              rw [getD_map_add c img x hx, getD_map_add c img b0 hb0]
              exact add_lt_add_left hc c
            show List.foldl _
                (if (img.map (fun x => c + x)).getD x 0 <
                  (img.map (fun x => c + x)).getD b0 0 then some x else some b0) t =
              List.foldl _
                (if img.getD x 0 < img.getD b0 0 then some x else some b0) t
            rw [if_pos hmc, if_pos hc]
            exact ih (some x) htail (fun b hb => Option.some.inj hb ▸ hx)
          · have hmc : ¬((img.map (fun x => c + x)).getD x 0 <
                (img.map (fun x => c + x)).getD b0 0) := by
              rw [getD_map_add c img x hx, getD_map_add c img b0 hb0]
              exact fun hcon => hc (lt_of_add_lt_add_left hcon)
            show List.foldl _
                (if (img.map (fun x => c + x)).getD x 0 <
                  (img.map (fun x => c + x)).getD b0 0 then some x else some b0) t =
              List.foldl _
                (if img.getD x 0 < img.getD b0 0 then some x else some b0) t
            rw [if_neg hmc, if_neg hc]
            exact ih (some b0) htail (fun b hb => Option.some.inj hb ▸ hb0)

theorem wsPick_shift (c : ℚ) (img : List ℚ) (mask : List Bool) (lab : List ℕ)
    (hlen : lab.length ≤ img.length) :
    wsPick (img.map (fun x => c + x)) mask lab = wsPick img mask lab := by
  unfold wsPick
  refine pick_fold_shift c img _ none ?_ ?_
  · intro x hx
    have := List.mem_range.mp (List.mem_filter.mp hx).1
    omega
  · intro b hb
    cases hb

theorem wsStep_shift (c : ℚ) (img : List ℚ) (mask : List Bool) (lab : List ℕ)
    (hlen : lab.length ≤ img.length) :
    wsStep (img.map (fun x => c + x)) mask lab = wsStep img mask lab := by
  unfold wsStep
  rw [wsPick_shift c img mask lab hlen]

theorem wsRun_shift : ∀ (k : ℕ) (c : ℚ) (img : List ℚ) (mask : List Bool) (lab : List ℕ),
    lab.length ≤ img.length →
    wsRun k (img.map (fun x => c + x)) mask lab = wsRun k img mask lab := by
  intro k
  induction k with
  | zero => intro c img mask lab _; rfl
  | succ m ih =>
      intro c img mask lab hlen
      rw [wsRun, wsRun, wsStep_shift c img mask lab hlen]
      refine ih c img mask _ ?_
      rw [wsStep_length]
      exact hlen

theorem watershed_shift (c : ℚ) (img : List ℚ) (markers : List ℕ) (mask : List Bool)
    (hlen : markers.length ≤ img.length) :
    watershed (img.map (fun x => c + x)) markers mask = watershed img markers mask := by
  unfold watershed
  rw [List.length_map]
  refine wsRun_shift _ c img mask _ ?_
  rw [wsInit_length]
  exact hlen

theorem ccLabels_length : ∀ (bs : List Bool) (prev : Bool) (k : ℕ),
    (ccLabels bs prev k).length = bs.length := by
  intro bs
  induction bs with
  | nil => intro prev k; rfl
  | cons b t ih =>
      intro prev k
      unfold ccLabels
      by_cases hb : b
      · rw [if_pos hb]
        simp [ih]
      · rw [if_neg hb]
        simp [ih]

theorem candList_length (f : List ℚ) (d : ℕ) : (candList f d).length = f.length := by
  simp [candList]

theorem seeds_length (f : List ℚ) (d : ℕ) :
    (find_local_maxima f d).1.length = f.length := by
  show (ccLabels (candList f d) false 0).length = f.length
  rw [ccLabels_length, candList_length]

theorem offsetSeeds_length (s : List ℕ) (off : ℕ) :
    (offsetSeeds s off).length = s.length := by
  simp [offsetSeeds]

theorem offsetSeeds_getD (s : List ℕ) (off q : ℕ) :
    (offsetSeeds s off).getD q 0 =
      if s.getD q 0 = 0 then 0 else s.getD q 0 + off := by
  rcases Nat.lt_or_ge q s.length with hq | hq
  · unfold offsetSeeds
    rw [List.getD_eq_getElem?_getD, List.getElem?_map, List.getElem?_eq_getElem hq]
    rw [List.getD_eq_getElem?_getD, List.getElem?_eq_getElem hq]
    rfl
  · unfold offsetSeeds
    rw [List.getD_eq_getElem?_getD, List.getElem?_eq_none (by simpa using hq),
      List.getD_eq_getElem?_getD, List.getElem?_eq_none hq]
    rfl

theorem eq_replicate_zero_of_getD (l : List ℕ) (n : ℕ) (hlen : l.length = n)
    (h : ∀ p, p < n → l.getD p 0 = 0) : l = List.replicate n 0 := by
  rw [List.eq_replicate_iff]
  refine ⟨hlen, ?_⟩
  intro b hb
  rcases List.mem_iff_getElem.mp hb with ⟨i, hi, hib⟩
  have h2 := h i (by omega)
  rw [List.getD_eq_getElem?_getD, List.getElem?_eq_getElem hi] at h2
  rw [← hib]
  exact h2

/-! ## Claim theorems for `watershed_from_boundary_distance` -/

/-- C5: whenever `find_local_maxima` reports zero seeds,
`watershed_from_boundary_distance` returns — as a defined value of a total
function, hence without raising any error — the all-zero segmentation
array of the same shape as the field, paired with the id offset
unchanged. -/
theorem watershed_zero_seeds (bd : List ℚ) (mask : List Bool) (off d : ℕ)
    (h : (find_local_maxima bd d).2 = 0) :
    watershed_from_boundary_distance bd mask off d =
      Sum.inl (List.replicate bd.length 0, off) := by
  unfold watershed_from_boundary_distance
  rw [if_pos h]

/-- Witness for C5: the empty field reports zero seeds and yields the
all-zero pair with the offset 7 unchanged. -/
theorem watershed_zero_seeds_witness :
    (find_local_maxima ([] : List ℚ) 3).2 = 0 ∧
      watershed_from_boundary_distance [] [] 7 3 = Sum.inl ([], 7) := by
  constructor
  · decide
  · have h := watershed_zero_seeds [] [] 7 3 (by decide)
    simpa using h

/-- C6: every position where the inner mask is false is 0 (background) in
the segmentation returned by `watershed_from_boundary_distance`, in either
branch; in particular an all-false inner mask yields an all-zero
segmentation regardless of the field values. -/
theorem watershed_outside_mask_zero (bd : List ℚ) (mask : List Bool) (off d : ℕ) :
    (∀ p, mask.getD p false = false →
      (segOf (watershed_from_boundary_distance bd mask off d)).getD p 0 = 0) ∧
    ((∀ q, mask.getD q false = false) →
      segOf (watershed_from_boundary_distance bd mask off d) =
        List.replicate bd.length 0) := by
  have hseg : ∀ p, mask.getD p false = false →
      (segOf (watershed_from_boundary_distance bd mask off d)).getD p 0 = 0 := by
    intro p hp
    unfold watershed_from_boundary_distance
    by_cases h : (find_local_maxima bd d).2 = 0
    · rw [if_pos h]
      show (List.replicate bd.length 0).getD p 0 = 0
      exact getD_replicate_self 0 _ p
    · rw [if_neg h]
      show (watershed _ _ mask).getD p 0 = 0
      exact watershed_mask_zero _ _ mask p hp
  have hlen : (segOf (watershed_from_boundary_distance bd mask off d)).length =
      bd.length := by
    unfold watershed_from_boundary_distance
    by_cases h : (find_local_maxima bd d).2 = 0
    · rw [if_pos h]
      show (List.replicate bd.length 0).length = bd.length
      simp
    · rw [if_neg h]
      show (watershed _ _ mask).length = bd.length
      rw [watershed_length, offsetSeeds_length, seeds_length]
  refine ⟨hseg, fun hall => ?_⟩
  exact eq_replicate_zero_of_getD _ _ hlen (fun p _ => hseg p (hall p))

/-- Witness for C6: with the all-false mask `[false, false]` on the field
`[1, 2]`, position 0 is background and the whole segmentation is zero. -/
theorem watershed_outside_mask_zero_witness :
    (([false, false] : List Bool).getD 0 false = false ∧
      (segOf (watershed_from_boundary_distance [1, 2] [false, false] 0 2)).getD 0 0 = 0) ∧
    ((∀ q, ([false, false] : List Bool).getD q false = false) ∧
      segOf (watershed_from_boundary_distance [1, 2] [false, false] 0 2) =
        List.replicate ([1, 2] : List ℚ).length 0) := by
  have h := watershed_outside_mask_zero [1, 2] [false, false] 0 2
  have hall : ∀ q, ([false, false] : List Bool).getD q false = false := by
    intro q
    match q with
    | 0 => rfl
    | 1 => rfl
    | (_ + 2) => rfl
  exact ⟨⟨rfl, h.1 0 rfl⟩, ⟨hall, h.2 hall⟩⟩

/-- C7: when at least one seed is found, `watershed_from_boundary_distance`
returns a bare segmentation of the same shape as the field in which every
non-zero value sits inside the mask and equals (seed id + id offset) for
some non-zero seed id of the seed map. -/
theorem watershed_positive_labels (bd : List ℚ) (mask : List Bool) (off d : ℕ)
    (h : (find_local_maxima bd d).2 ≠ 0) :
    ∃ seg, watershed_from_boundary_distance bd mask off d = Sum.inr seg ∧
      seg.length = bd.length ∧
      ∀ p, seg.getD p 0 ≠ 0 →
        mask.getD p false = true ∧
        ∃ q, q < bd.length ∧ (find_local_maxima bd d).1.getD q 0 ≠ 0 ∧
          seg.getD p 0 = (find_local_maxima bd d).1.getD q 0 + off := by
  unfold watershed_from_boundary_distance
  rw [if_neg h]
  refine ⟨_, rfl, ?_, ?_⟩
  · rw [watershed_length, offsetSeeds_length, seeds_length]
  · intro p hp
    constructor
    · by_contra hm
      have hm2 : mask.getD p false = false := by
        cases hmask : mask.getD p false
        · rfl
        · exact absurd hmask hm
      exact hp (watershed_mask_zero _ _ mask p hm2)
    · rcases watershed_label_mem _ _ mask p hp with ⟨q, hq, hqv⟩
      rw [offsetSeeds_length, seeds_length] at hq
      rw [offsetSeeds_getD] at hqv
      by_cases hz : (find_local_maxima bd d).1.getD q 0 = 0
      · rw [if_pos hz] at hqv
        rw [← hqv] at hp
        cases hp rfl
      · rw [if_neg hz] at hqv
        exact ⟨q, hq, hz, hqv.symm⟩

/-- Witness for C7 on the field `[1, 0]` (one seed) with id offset 5. -/
theorem watershed_positive_labels_witness :
    (find_local_maxima ([1, 0] : List ℚ) 2).2 ≠ 0 ∧
      ∃ seg, watershed_from_boundary_distance [1, 0] [true, true] 5 2 = Sum.inr seg ∧
        seg.length = ([1, 0] : List ℚ).length ∧
        ∀ p, seg.getD p 0 ≠ 0 →
          ([true, true] : List Bool).getD p false = true ∧
          ∃ q, q < ([1, 0] : List ℚ).length ∧
            (find_local_maxima ([1, 0] : List ℚ) 2).1.getD q 0 ≠ 0 ∧
            seg.getD p 0 = (find_local_maxima ([1, 0] : List ℚ) 2).1.getD q 0 + 5 :=
  ⟨by decide, watershed_positive_labels [1, 0] [true, true] 5 2 (by decide)⟩

/-- C8: in the non-degenerate branch the code floods the terrain
`boundary_distances.max() - boundary_distances`; the resulting
segmentation equals the seeded watershed flooded on the negated field
`-boundary_distances` with the same (offset) seeds and mask, because the
two terrains induce the same flooding order. -/
theorem watershed_negated_field (bd : List ℚ) (mask : List Bool) (off d : ℕ)
    (h : (find_local_maxima bd d).2 ≠ 0) :
    watershed_from_boundary_distance bd mask off d =
      Sum.inr (watershed (bd.map (fun x => -x))
        (offsetSeeds (find_local_maxima bd d).1 off) mask) := by
  unfold watershed_from_boundary_distance
  rw [if_neg h]
  congr 1
  have hmap : bd.map (fun x => listMaxQ bd - x) =
      (bd.map (fun x => -x)).map (fun x => listMaxQ bd + x) := by
    rw [List.map_map]
    apply List.map_congr_left
    intro a _
    show listMaxQ bd - a = listMaxQ bd + -a
    ring
  rw [hmap]
  apply watershed_shift
  rw [offsetSeeds_length, seeds_length, List.length_map]

/-- Witness for C8 on the field `[1, 0]` (one seed). -/
theorem watershed_negated_field_witness :
    (find_local_maxima ([1, 0] : List ℚ) 2).2 ≠ 0 ∧
      watershed_from_boundary_distance [1, 0] [true, true] 0 2 =
        Sum.inr (watershed (([1, 0] : List ℚ).map (fun x => -x))
          (offsetSeeds (find_local_maxima ([1, 0] : List ℚ) 2).1 0) [true, true]) :=
  ⟨by decide, watershed_negated_field [1, 0] [true, true] 0 2 (by decide)⟩

/-- C10: the return arity of `watershed_from_boundary_distance` differs
between its branches: the empty field (zero seeds) yields the 2-tuple
(all-zero array, id offset), while the field `[1, 0]` (one seed) yields a
bare segmentation array with no id-offset component. -/
theorem watershed_branch_arity :
    watershed_from_boundary_distance [] [] 7 3 = Sum.inl ([], 7) ∧
      ∃ seg : List ℕ,
        watershed_from_boundary_distance [1, 0] [true, true] 0 2 = Sum.inr seg := by
  constructor
  · unfold watershed_from_boundary_distance
    rw [if_pos (by decide : (find_local_maxima ([] : List ℚ) 3).2 = 0)]
    rfl
  · unfold watershed_from_boundary_distance
    rw [if_neg (by decide : ¬(find_local_maxima ([1, 0] : List ℚ) 2).2 = 0)]
    exact ⟨_, rfl⟩

end InstanceSeg
